import Mathlib

/-!
Verification of the segmentation and size-normalization pipeline of
`src/server/retrieval/chunk_textbook.py`.

Strings are modelled as `List Char` (ASCII semantics for Python's
whitespace/digit/word-character classes).  Each definition below is a direct
translation of the corresponding Python function.
-/

/-- Python whitespace class (`str.strip`, `str.split`, regex `\s`), ASCII part. -/
def isPySpace (c : Char) : Bool :=
  c = ' ' || c = '\t' || c = '\n' || c = '\r' || c = '\x0b' || c = '\x0c'

/-- ASCII decimal digit, regex `\d`. -/
def isDigitCh (c : Char) : Bool :=
  '0' ≤ c && c ≤ '9'

/-- ASCII word character, regex `\w` (used by the `\b` boundaries). -/
def isWordChar (c : Char) : Bool :=
  ('a' ≤ c && c ≤ 'z') || ('A' ≤ c && c ≤ 'Z') || isDigitCh c || c = '_'

/-- ASCII lower-casing, for `re.IGNORECASE` matching. -/
def lowerCh (c : Char) : Char :=
  if 'A' ≤ c && c ≤ 'Z' then Char.ofNat (c.toNat + 32) else c

/-- Python `str.strip()`: drop leading and trailing whitespace. -/
def pyStrip (cs : List Char) : List Char :=
  ((cs.dropWhile isPySpace).reverse.dropWhile isPySpace).reverse

/-- Helper for `pyWords`: scan with the (reversed) current word as accumulator. -/
def pyWordsAux (acc : List Char) : List Char → List (List Char)
  | [] => if acc.isEmpty then [] else [acc.reverse]
  | c :: rest =>
    if isPySpace c then
      (if acc.isEmpty then [] else [acc.reverse]) ++ pyWordsAux [] rest
    else pyWordsAux (c :: acc) rest

/-- Python `str.split()` with no argument: whitespace-separated words, empties discarded. -/
def pyWords (cs : List Char) : List (List Char) := pyWordsAux [] cs

/-- Join a list of strings with single spaces, Python `" ".join(...)`. -/
def sepJoin : List (List Char) → List Char
  | [] => []
  | [p] => p
  | p :: q :: rest => p ++ ' ' :: sepJoin (q :: rest)

/-- The `Segment` dataclass.  The Python field `section` is called `sect` here
(`section` is a Lean keyword). -/
structure Segment where
  start_line : Nat
  end_line : Nat
  chapter : Option (List Char)
  sect : Option (List Char)
  heading : Option (List Char)
  text_lines : List (List Char)
deriving DecidableEq, Repr

/-- `Segment.text`: strip each line, drop blank ones, join with single spaces. -/
def Segment.text (s : Segment) : List Char :=
  sepJoin ((s.text_lines.map pyStrip).filter (fun l => !l.isEmpty))

/-- `Segment.word_count`: number of whitespace-separated tokens of `text`. -/
def Segment.word_count (s : Segment) : Nat :=
  if s.text.isEmpty then 0 else (pyWords s.text).length

/-- Case-insensitive literal-prefix test: does `cs` start with the (lower-case)
pattern `pat`? -/
def isPrefixCI : List Char → List Char → Bool
  | [], _ => true
  | _ :: _, [] => false
  | p :: ps, c :: cs => (lowerCh c = p) && isPrefixCI ps cs

/-- Letters of the glossary marker. -/
def glossaryChars : List Char := ['g', 'l', 'o', 's', 's', 'a', 'r', 'y']

/-- Word-boundary test after a match (regex `\b` after a word character). -/
def boundaryAfter : List Char → Bool
  | [] => true
  | c :: _ => !isWordChar c

/-- Does `\bGLOSSARY\b` (case-insensitive) match at the start of `cs`?
Since the pattern starts and ends with word characters, the boundaries demand a
non-word character (or the string edge) on each side; the left side is checked
by the caller `glossSearch`. -/
def glossAt (cs : List Char) : Bool :=
  isPrefixCI glossaryChars cs && boundaryAfter (cs.drop 8)

/-- `re.search` scan for `\bGLOSSARY\b`: try every position, tracking whether
the previous character was a word character. -/
def glossSearch (prevWord : Bool) : List Char → Bool
  | [] => false
  | c :: rest => (!prevWord && glossAt (c :: rest)) || glossSearch (isWordChar c) rest

/-- `GLOSSARY_RE.search(...) is not None`. -/
def glossaryFound (cs : List Char) : Bool := glossSearch false cs

/-- Letters of the chapter marker. -/
def chapterChars : List Char := ['c', 'h', 'a', 'p', 't', 'e', 'r']

/-- `CHAPTER_RE.match`: `^\s*CHAPTER\s+(\d+)\.` with `re.IGNORECASE`; returns
the captured digit group.  The character classes involved are pairwise
disjoint, so the greedy regex is equivalent to this deterministic scan. -/
def chapterMatch (cs : List Char) : Option (List Char) :=
  let s := cs.dropWhile isPySpace
  if isPrefixCI chapterChars s then
    let afterCh := s.drop 7
    let sp := afterCh.takeWhile isPySpace
    let afterSp := afterCh.dropWhile isPySpace
    let digits := afterSp.takeWhile isDigitCh
    if !sp.isEmpty && !digits.isEmpty && ((afterSp.drop digits.length).head? == some '.') then
      some digits
    else none
  else none

/-- Fuel-indexed parser for the maximal `(?:\.\d+)+` run: returns the consumed
characters and the remainder.  Each successful group consumes at least two
characters, so `fuel = cs.length` always suffices. -/
def parseDotGroupsF : Nat → List Char → (List Char × List Char)
  | 0, cs => ([], cs)
  | fuel + 1, cs =>
    match cs with
    | '.' :: rest =>
      let ds := rest.takeWhile isDigitCh
      if ds.isEmpty then ([], cs)
      else
        let (g, r) := parseDotGroupsF fuel (rest.drop ds.length)
        ('.' :: (ds ++ g), r)
    | _ => ([], cs)

/-- Maximal run of `(?:\.\d+)` groups. -/
def parseDotGroups (cs : List Char) : List Char × List Char :=
  parseDotGroupsF cs.length cs

/-- `SECTION_RE.match`: `^\s*(\d+(?:\.\d+)+)\s+(.+)$`.  Returns the numeric
label and the raw title.  `.` does not match a newline and `$` also matches
just before a final newline, hence the `core` adjustment. -/
def sectionMatch (cs : List Char) : Option (List Char × List Char) :=
  let s := cs.dropWhile isPySpace
  let d1 := s.takeWhile isDigitCh
  if d1.isEmpty then none else
  let r1 := s.drop d1.length
  let (g, r2) := parseDotGroups r1
  if g.isEmpty then none else
  let sp := r2.takeWhile isPySpace
  if sp.isEmpty then none else
  let rest := r2.drop sp.length
  let core := if rest.getLast? == some '\n' then rest.dropLast else rest
  if core.isEmpty || core.contains '\n' then none else
  some (d1 ++ g, core)

/-- The string `"Glossary"`. -/
def glossaryLabel : List Char := "Glossary".data

/-- The heading `f"Chapter {chapter_num}"`. -/
def chapterHeading (num : List Char) : List Char := "Chapter ".data ++ num

/-- `classify_heading(line, current_chapter)`: glossary marker first, then
chapter marker, then numbered section; otherwise `(None, None, None)`. -/
def classify_heading (line : List Char) (current_chapter : Option (List Char)) :
    Option (List Char) × Option (List Char) × Option (List Char) :=
  let stripped := pyStrip line
  if glossaryFound stripped then (some glossaryLabel, none, some glossaryLabel)
  else
    match chapterMatch stripped with
    | some num => (some num, none, some (chapterHeading num))
    | none =>
      match sectionMatch stripped with
      | some (label, title) => (current_chapter, some label, some (pyStrip title))
      | none => (none, none, none)

/-- Python `line.rstrip("\n")`. -/
def rstripNl (l : List Char) : List Char :=
  (l.reverse.dropWhile (fun c => c = '\n')).reverse

/-- Mutable state of the `build_semantic_segments` scan. -/
structure SegState where
  segments : List Segment
  curCh : Option (List Char)
  curSec : Option (List Char)
  curHead : Option (List Char)
  curLines : List (List Char)
  curStart : Nat
deriving Repr

/-- Loop body of `build_semantic_segments` for one line at (1-based) index `idx`. -/
def stepLine (st : SegState) (idx : Nat) (line : List Char) : SegState :=
  let (chapter, sectionLbl, heading) := classify_heading line st.curCh
  let isHeading := chapter.isSome || sectionLbl.isSome || heading.isSome
  if isHeading then
    let segs :=
      if st.curLines.isEmpty then st.segments
      else st.segments ++
        [{ start_line := st.curStart, end_line := idx - 1, chapter := st.curCh,
           sect := st.curSec, heading := st.curHead, text_lines := st.curLines }]
    let newCh := match chapter with | some c => some c | none => st.curCh
    let newSec := match sectionLbl with
      | some s => some s
      | none => if chapter.isSome then none else st.curSec
    let newHead := match heading with | some h => some h | none => st.curHead
    { segments := segs, curCh := newCh, curSec := newSec, curHead := newHead,
      curLines := [rstripNl line], curStart := idx }
  else
    { st with curLines := st.curLines ++ [rstripNl line] }

/-- Run the scan from state `st`, the next line having index `idx`. -/
def runLines (st : SegState) (idx : Nat) : List (List Char) → SegState
  | [] => st
  | l :: rest => runLines (stepLine st idx l) (idx + 1) rest

/-- Initial scan state. -/
def initState : SegState :=
  { segments := [], curCh := none, curSec := none, curHead := none,
    curLines := [], curStart := 1 }

/-- `build_semantic_segments` before the final empty-segment filter:
the scan plus the closing of the last in-progress segment (which Python guards
by `if current_lines:`, so the loop index is only read when lines exist). -/
def buildSegmentsRaw (lines : List (List Char)) : List Segment :=
  let st := runLines initState 1 lines
  if st.curLines.isEmpty then st.segments
  else st.segments ++
    [{ start_line := st.curStart, end_line := lines.length, chapter := st.curCh,
       sect := st.curSec, heading := st.curHead, text_lines := st.curLines }]

/-- `build_semantic_segments(lines)` including the final
`[seg for seg in segments if seg.word_count > 0]` filter. -/
def build_semantic_segments (lines : List (List Char)) : List Segment :=
  (buildSegmentsRaw lines).filter (fun s => decide (0 < s.word_count))

/-- Is `c` one of `.`, `!`, `?`, i.e. inside the `(?<=[.!?])` look-behind class? -/
def isSentPunct (c : Char) : Bool :=
  c = '.' || c = '!' || c = '?'

/-- Does a sentence boundary of `re.split(r"(?<=[.!?])\s+", ...)` occur right
after character `c` when the remaining input is `rest`? -/
def sentBreak (c : Char) (rest : List Char) : Bool :=
  isSentPunct c && (match rest with | d :: _ => isPySpace d | [] => false)

/-- Scanner for `re.split(r"(?<=[.!?])\s+", text)`: `skip` records that we are
inside the whitespace of a separator, `acc` is the reversed current piece. -/
def sentSplitGo (skip : Bool) (acc : List Char) : List Char → List (List Char)
  | [] => [acc.reverse]
  | c :: rest =>
    if skip && isPySpace c then sentSplitGo true acc rest
    else if sentBreak c rest then (acc.reverse ++ [c]) :: sentSplitGo true [] rest
    else sentSplitGo false (c :: acc) rest

/-- `re.split(r"(?<=[.!?])\s+", text)`: split after `.`/`!`/`?` followed by
whitespace, the whitespace run being the (removed) separator. -/
def sentSplit (cs : List Char) : List (List Char) := sentSplitGo false [] cs

/-- New sub-Segment of `split_large_segment`: the metadata of the original
segment with `text_lines` the single joined line of the current sentences. -/
def mkPiece (seg0 : Segment) (cur : List (List Char)) : Segment :=
  { seg0 with text_lines := [sepJoin cur] }

/-- Greedy packing loop of `split_large_segment` over the sentence pieces:
strip each piece, skip empty ones, flush the current group when it is nonempty
and adding the next piece would exceed `maxW`. -/
def packLoop (maxW : Nat) (seg0 : Segment) (cur : List (List Char)) (curWc : Nat) :
    List (List Char) → List Segment
  | [] => if cur.isEmpty then [] else [mkPiece seg0 cur]
  | sent :: rest =>
    let s := pyStrip sent
    if s.isEmpty then packLoop maxW seg0 cur curWc rest
    else
      let wc := (pyWords s).length
      if !cur.isEmpty && decide (maxW < curWc + wc) then
        mkPiece seg0 cur :: packLoop maxW seg0 [s] wc rest
      else packLoop maxW seg0 (cur ++ [s]) (curWc + wc) rest

/-- `split_large_segment(seg, max_words)`. -/
def split_large_segment (seg : Segment) (max_words : Nat) : List Segment :=
  if seg.word_count ≤ max_words then [seg]
  else packLoop max_words seg [] 0 (sentSplit seg.text)

/-- Python's `a or b` on optional strings: `None` and the empty string are falsy. -/
def pyOr (a b : Option (List Char)) : Option (List Char) :=
  match a with
  | some x => if x.isEmpty then b else some x
  | none => b

/-- The combined Segment built in the merge-small pass of
`enforce_size_constraints` when the buffer is too small. -/
def combineSeg (buf seg : Segment) : Segment :=
  { start_line := buf.start_line, end_line := seg.end_line,
    chapter := pyOr buf.chapter seg.chapter, sect := pyOr buf.sect seg.sect,
    heading := pyOr buf.heading seg.heading,
    text_lines := buf.text_lines ++ seg.text_lines }

/-- Merge-small loop with the buffer held explicitly; the trailing `[buf]` is
the unconditional final `flush_buffer()`. -/
def mergeLoop (minW : Nat) (buf : Segment) : List Segment → List Segment
  | [] => [buf]
  | seg :: rest =>
    if buf.word_count < minW then mergeLoop minW (combineSeg buf seg) rest
    else buf :: mergeLoop minW seg rest

/-- Merge-small pass: the first segment initializes the empty buffer. -/
def mergeSmall (minW : Nat) : List Segment → List Segment
  | [] => []
  | s :: rest => mergeLoop minW s rest

/-- `enforce_size_constraints(segments, min_words, max_words)`: merge-small
pass, then split each overly large merged segment. -/
def enforce_size_constraints (segments : List Segment) (min_words max_words : Nat) :
    List Segment :=
  (mergeSmall min_words segments).flatMap
    (fun seg => if max_words < seg.word_count then split_large_segment seg max_words
                else [seg])

/-- Default segment used with `List.getD` in statements about chunk indices. -/
def dfltSeg : Segment :=
  { start_line := 0, end_line := 0, chapter := none, sect := none,
    heading := none, text_lines := [] }

/-! ### Word-level lemmas -/

theorem pyWordsAux_nil (acc : List Char) :
    pyWordsAux acc [] = if acc.isEmpty then [] else [acc.reverse] := rfl

theorem pyWordsAux_cons_ws {c : Char} (h : isPySpace c = true) (acc rest) :
    pyWordsAux acc (c :: rest) =
      (if acc.isEmpty then [] else [acc.reverse]) ++ pyWordsAux [] rest := by
  simp [pyWordsAux, h]

theorem pyWordsAux_cons_nws {c : Char} (h : isPySpace c = false) (acc rest) :
    pyWordsAux acc (c :: rest) = pyWordsAux (c :: acc) rest := by
  simp [pyWordsAux, h]

theorem pyWordsAux_sep {sp : Char} (hsp : isPySpace sp = true) :
    ∀ (a : List Char) (acc b), pyWordsAux acc (a ++ sp :: b) =
      pyWordsAux acc a ++ pyWordsAux [] b := by
  intro a
  induction a with
  | nil =>
    intro acc b
    simp [pyWordsAux_cons_ws hsp, pyWordsAux_nil]
  | cons c a ih =>
    intro acc b
    by_cases h : isPySpace c
    · simp only [List.cons_append, pyWordsAux_cons_ws h, ih, List.append_assoc]
    · have hc : isPySpace c = false := by simpa using h
      simp only [List.cons_append, pyWordsAux_cons_nws hc, ih]

theorem pyWordsAux_allws {t : List Char} (h : ∀ c ∈ t, isPySpace c = true) :
    ∀ acc, pyWordsAux acc t = if acc.isEmpty then [] else [acc.reverse] := by
  induction t with
  | nil => intro acc; rfl
  | cons c t ih =>
    intro acc
    rw [pyWordsAux_cons_ws (h c (by simp)), ih (fun d hd => h d (by simp [hd]))]
    simp

theorem pyWordsAux_append_ws {t : List Char} (h : ∀ c ∈ t, isPySpace c = true) :
    ∀ (a : List Char) (acc), pyWordsAux acc (a ++ t) = pyWordsAux acc a := by
  intro a
  induction a with
  | nil => intro acc; rw [List.nil_append, pyWordsAux_allws h, pyWordsAux_nil]
  | cons c a ih =>
    intro acc
    by_cases hc : isPySpace c
    · simp only [List.cons_append, pyWordsAux_cons_ws hc, ih]
    · have hc2 : isPySpace c = false := by simpa using hc
      simp only [List.cons_append, pyWordsAux_cons_nws hc2, ih]

theorem pyWords_ws_left {t : List Char} (h : ∀ c ∈ t, isPySpace c = true) (x : List Char) :
    pyWords (t ++ x) = pyWords x := by
  induction t with
  | nil => rfl
  | cons c t ih =>
    have := pyWordsAux_cons_ws (h c (by simp)) [] (t ++ x)
    simp only [pyWords, List.cons_append, this, List.isEmpty_nil, if_pos rfl,
      List.nil_append]
    exact ih (fun d hd => h d (by simp [hd]))

theorem pyWords_dropWhile (cs : List Char) :
    pyWords (cs.dropWhile isPySpace) = pyWords cs := by
  conv_rhs => rw [← List.takeWhile_append_dropWhile (p := isPySpace) (l := cs)]
  rw [pyWords_ws_left (fun c hc => List.mem_takeWhile_imp hc)]

theorem strip_decomp (cs : List Char) :
    ∃ v, cs.dropWhile isPySpace = pyStrip cs ++ v ∧ ∀ c ∈ v, isPySpace c = true := by
  refine ⟨((cs.dropWhile isPySpace).reverse.takeWhile isPySpace).reverse, ?_, ?_⟩
  · conv_lhs =>
      rw [← List.reverse_reverse (cs.dropWhile isPySpace),
        ← List.takeWhile_append_dropWhile (p := isPySpace)
          (l := (cs.dropWhile isPySpace).reverse),
        List.reverse_append]
    rfl
  · intro c hc
    exact List.mem_takeWhile_imp (List.mem_reverse.mp hc)

theorem pyWords_strip (cs : List Char) : pyWords (pyStrip cs) = pyWords cs := by
  obtain ⟨v, hd, hv⟩ := strip_decomp cs
  have h1 : pyWords (pyStrip cs ++ v) = pyWords (pyStrip cs) :=
    pyWordsAux_append_ws hv _ _
  rw [← h1, ← hd, pyWords_dropWhile]

theorem pyWords_sepJoin : ∀ ps : List (List Char),
    pyWords (sepJoin ps) = ps.flatMap pyWords := by
  intro ps
  induction ps with
  | nil => rfl
  | cons p ps ih =>
    cases ps with
    | nil => simp [sepJoin]
    | cons q rest =>
      have hsp : isPySpace ' ' = true := rfl
      simp only [sepJoin, List.flatMap_cons]
      rw [show pyWords (p ++ ' ' :: sepJoin (q :: rest)) =
        pyWords p ++ pyWords (sepJoin (q :: rest)) from
          pyWordsAux_sep hsp p [] (sepJoin (q :: rest)), ih]
      simp [List.flatMap_cons]

theorem flatMap_filter_nonempty (l : List (List Char)) :
    (l.filter (fun x => !x.isEmpty)).flatMap pyWords = l.flatMap pyWords := by
  induction l with
  | nil => rfl
  | cons x l ih =>
    by_cases h : x.isEmpty
    · have hx : x = [] := List.isEmpty_iff.mp h
      simp [List.filter_cons, h, ih, hx, pyWords, pyWordsAux]
    · simp [List.filter_cons, h, ih]

/-- Words of a Segment's `text` are exactly the words of its raw `text_lines`. -/
theorem pyWords_text (s : Segment) :
    pyWords s.text = s.text_lines.flatMap pyWords := by
  unfold Segment.text
  rw [pyWords_sepJoin, flatMap_filter_nonempty]
  induction s.text_lines with
  | nil => rfl
  | cons x l ih => simp [ih, pyWords_strip]

theorem word_count_eq (s : Segment) :
    s.word_count = (s.text_lines.flatMap pyWords).length := by
  unfold Segment.word_count
  by_cases h : s.text.isEmpty
  · have hx : s.text = [] := List.isEmpty_iff.mp h
    rw [← pyWords_text, hx]
    simp [h, pyWords, pyWordsAux]
  · rw [← pyWords_text]
    simp [h]

/-! ### Line-range coverage of the Segmenter (C1) -/

/-- The ranges of the segments in the list tile the interval `[a, b]` exactly:
the first starts at `a`, each is nonempty, consecutive ones are adjacent, and
the last ends at `b` (an empty list tiles the empty interval `b + 1 = a`). -/
def tiles : List Segment → Nat → Nat → Prop
  | [], a, b => b + 1 = a
  | s :: rest, a, b => s.start_line = a ∧ a ≤ s.end_line ∧ tiles rest (s.end_line + 1) b

theorem tiles_append {l : List Segment} {a b : Nat} (h : tiles l a b) {x : Segment}
    (hs : x.start_line = b + 1) (he : b + 1 ≤ x.end_line) :
    tiles (l ++ [x]) a x.end_line := by
  induction l generalizing a with
  | nil =>
    have hba : b + 1 = a := h
    exact ⟨hs.trans hba, hba ▸ he, rfl⟩
  | cons s l ih =>
    obtain ⟨h1, h2, h3⟩ := h
    exact ⟨h1, h2, ih h3⟩

/-- Invariant of the segmentation scan after `k` lines have been processed. -/
def segInv (st : SegState) (k : Nat) : Prop :=
  (st.curLines = [] → st.segments = [] ∧ st.curStart = 1 ∧ k = 0) ∧
  (st.curLines ≠ [] → tiles st.segments 1 (st.curStart - 1) ∧
    1 ≤ st.curStart ∧ st.curStart ≤ k)

theorem segInv_init : segInv initState 0 :=
  ⟨fun _ => ⟨rfl, rfl, rfl⟩, fun h => absurd rfl h⟩

theorem segInv_step {st : SegState} {k : Nat} (h : segInv st k) (line : List Char) :
    segInv (stepLine st (k + 1) line) (k + 1) := by
  rcases hcl : classify_heading line st.curCh with ⟨ch, sec, hd⟩
  by_cases hh : (ch.isSome || sec.isSome || hd.isSome) = true
  · -- heading line: possibly close the previous segment, start a new one here
    by_cases he : st.curLines.isEmpty
    · obtain ⟨h1, h2, h3⟩ := h.1 (List.isEmpty_iff.mp he)
      subst h3
      constructor
      · intro hc
        simp [stepLine, hcl, hh, he] at hc
      · intro _
        simp only [stepLine, hcl, hh, if_pos, he, if_true]
        refine ⟨?_, by omega, by omega⟩
        simp [h1, h2, tiles]
    · have hne : st.curLines ≠ [] := fun e => he (by simp [e])
      obtain ⟨ht, h1, h2⟩ := h.2 hne
      constructor
      · intro hc
        simp [stepLine, hcl, hh, he] at hc
      · intro _
        simp only [stepLine, hcl, hh, if_pos, he, if_false, Bool.false_eq_true]
        refine ⟨?_, by omega, by omega⟩
        have := tiles_append (x :=
          { start_line := st.curStart, end_line := k + 1 - 1, chapter := st.curCh,
            sect := st.curSec, heading := st.curHead, text_lines := st.curLines })
          ht (by simp; omega) (by simp; omega)
        simpa using this
  · -- body line: the pending segment just grows
    constructor
    · intro hc
      simp [stepLine, hcl, hh] at hc
    · intro _
      simp only [stepLine, hcl, hh, if_neg, if_false, Bool.false_eq_true]
      rcases he : st.curLines with _ | ⟨l0, ls⟩
      · obtain ⟨h1, h2, h3⟩ := h.1 he
        subst h3
        exact ⟨by simp [h1, h2, tiles], by simp [h2], by simp [h2]⟩
      · obtain ⟨ht, h1, h2⟩ := h.2 (by simp [he])
        exact ⟨ht, h1, by omega⟩

theorem segInv_run : ∀ (ls : List (List Char)) (st : SegState) (k : Nat),
    segInv st k → segInv (runLines st (k + 1) ls) (k + ls.length) := by
  intro ls
  induction ls with
  | nil => intro st k h; simpa using h
  | cons l ls ih =>
    intro st k h
    have := ih (stepLine st (k + 1) l) (k + 1) (segInv_step h l)
    rw [show k + (l :: ls).length = (k + 1) + ls.length by simp; omega]
    simpa [runLines] using this

/-- Before the empty-segment filter, the segment ranges tile `[1, N]` exactly. -/
theorem tiles_buildSegmentsRaw (lines : List (List Char)) :
    tiles (buildSegmentsRaw lines) 1 lines.length := by
  have h := segInv_run lines initState 0 segInv_init
  simp only [Nat.zero_add] at h
  unfold buildSegmentsRaw
  by_cases hc : (runLines initState 1 lines).curLines.isEmpty
  · obtain ⟨h1, _, h3⟩ := h.1 (List.isEmpty_iff.mp hc)
    have h4 : lines.length = 0 := by omega
    simp only [hc, if_true, h1, h4]
    simp [tiles]
  · have hne : (runLines initState 1 lines).curLines ≠ [] :=
      fun e => hc (by simp [e])
    obtain ⟨ht, h1, h2⟩ := h.2 hne
    simp only [hc, if_false, Bool.false_eq_true]
    have := tiles_append (x :=
      { start_line := (runLines initState 1 lines).curStart, end_line := lines.length,
        chapter := (runLines initState 1 lines).curCh,
        sect := (runLines initState 1 lines).curSec,
        heading := (runLines initState 1 lines).curHead,
        text_lines := (runLines initState 1 lines).curLines })
      ht (by simp; omega) (by simp; omega)
    simpa using this

/-! ### Content preservation through the Size Normalizer (C2) -/

/-- Word sequence carried by a Segment (words of its raw `text_lines`). -/
def segWords (s : Segment) : List (List Char) := s.text_lines.flatMap pyWords

theorem combineSeg_words (b s : Segment) :
    segWords (combineSeg b s) = segWords b ++ segWords s := by
  simp [segWords, combineSeg, List.flatMap_append]

theorem mergeLoop_words (minW : Nat) :
    ∀ (l : List Segment) (buf : Segment),
      (mergeLoop minW buf l).flatMap segWords = segWords buf ++ l.flatMap segWords := by
  intro l
  induction l with
  | nil => intro buf; simp [mergeLoop]
  | cons seg rest ih =>
    intro buf
    by_cases h : buf.word_count < minW
    · rw [mergeLoop, if_pos h, ih, combineSeg_words]
      simp [List.flatMap_cons, List.append_assoc]
    · rw [mergeLoop, if_neg h]
      simp [List.flatMap_cons, ih]

theorem pyWords_cons_ws {c : Char} (h : isPySpace c = true) (rest : List Char) :
    pyWords (c :: rest) = pyWords rest := by
  rw [pyWords, pyWordsAux_cons_ws h]
  rfl

theorem sentBreak_true {c : Char} {rest : List Char} (h : sentBreak c rest = true) :
    isSentPunct c = true ∧ ∃ d rest2, rest = d :: rest2 ∧ isPySpace d = true := by
  cases rest with
  | nil => simp [sentBreak] at h
  | cons d rest2 =>
    simp only [sentBreak, Bool.and_eq_true] at h
    exact ⟨h.1, d, rest2, rfl, h.2⟩

theorem sentSplitGo_cons (skip : Bool) (acc : List Char) (c : Char) (rest : List Char) :
    sentSplitGo skip acc (c :: rest) =
      if (skip && isPySpace c) = true then sentSplitGo true acc rest
      else if sentBreak c rest = true then
        (acc.reverse ++ [c]) :: sentSplitGo true [] rest
      else sentSplitGo false (c :: acc) rest := rfl

theorem sentSplitGo_words :
    ∀ (l : List Char) (skip : Bool) (acc : List Char), (skip = true → acc = []) →
      (sentSplitGo skip acc l).flatMap pyWords = pyWords (acc.reverse ++ l) := by
  intro l
  induction l with
  | nil =>
    intro skip acc _
    simp [sentSplitGo]
  | cons c rest ih =>
    intro skip acc hsk
    by_cases h1 : (skip && isPySpace c) = true
    · obtain ⟨hskip, hws⟩ : skip = true ∧ isPySpace c = true := by simpa using h1
      have hacc : acc = [] := hsk hskip
      subst hacc
      rw [sentSplitGo_cons, if_pos h1, ih true [] (fun _ => rfl)]
      simp [pyWords_cons_ws hws]
    · by_cases h2 : sentBreak c rest = true
      · obtain ⟨hp, d, rest2, hrest, hd⟩ := sentBreak_true h2
        subst hrest
        rw [sentSplitGo_cons, if_neg h1, if_pos h2, List.flatMap_cons,
          ih true [] (fun _ => rfl)]
        have hsep := pyWordsAux_sep hd (acc.reverse ++ [c]) [] rest2
        rw [List.reverse_nil, List.nil_append, show acc.reverse ++ c :: d :: rest2 =
          (acc.reverse ++ [c]) ++ d :: rest2 by simp]
        rw [show pyWords ((acc.reverse ++ [c]) ++ d :: rest2) =
          pyWords (acc.reverse ++ [c]) ++ pyWords rest2 from hsep]
        rw [pyWords_cons_ws hd]
      · rw [sentSplitGo_cons, if_neg h1, if_neg h2, ih false (c :: acc) (by simp)]
        simp

theorem sentSplit_words (cs : List Char) :
    (sentSplit cs).flatMap pyWords = pyWords cs := by
  have := sentSplitGo_words cs false [] (by simp)
  simpa [sentSplit] using this

theorem mkPiece_words (seg0 : Segment) (cur : List (List Char)) :
    segWords (mkPiece seg0 cur) = cur.flatMap pyWords := by
  simp [segWords, mkPiece, pyWords_sepJoin]

theorem pyWords_of_strip_empty {sent : List Char} (h : (pyStrip sent).isEmpty = true) :
    pyWords sent = [] := by
  have h0 : pyStrip sent = [] := List.isEmpty_iff.mp h
  rw [← pyWords_strip, h0]
  rfl

theorem packLoop_words (maxW : Nat) (seg0 : Segment) :
    ∀ (sents : List (List Char)) (cur : List (List Char)) (curWc : Nat),
      (packLoop maxW seg0 cur curWc sents).flatMap segWords =
        cur.flatMap pyWords ++ sents.flatMap pyWords := by
  intro sents
  induction sents with
  | nil =>
    intro cur curWc
    by_cases h : cur.isEmpty
    · have : cur = [] := List.isEmpty_iff.mp h
      simp [packLoop, h, this]
    · simp [packLoop, h, mkPiece_words]
  | cons sent rest ih =>
    intro cur curWc
    by_cases h : (pyStrip sent).isEmpty
    · simp only [packLoop, h, if_true, List.flatMap_cons]
      rw [ih, pyWords_of_strip_empty h]
      simp
    · simp only [packLoop, h, if_false, Bool.false_eq_true, List.flatMap_cons]
      by_cases h2 : (!cur.isEmpty &&
          decide (maxW < curWc + (pyWords (pyStrip sent)).length)) = true
      · simp only [h2, if_true, List.flatMap_cons]
        rw [ih, mkPiece_words]
        simp [pyWords_strip]
      · simp only [h2, if_false, Bool.false_eq_true]
        rw [ih]
        simp [pyWords_strip]

theorem split_large_segment_words (seg : Segment) (maxW : Nat) :
    (split_large_segment seg maxW).flatMap segWords = segWords seg := by
  unfold split_large_segment
  by_cases h : seg.word_count ≤ maxW
  · simp [h]
  · simp only [h, if_false, Bool.false_eq_true]
    rw [packLoop_words, sentSplit_words]
    simp [segWords, pyWords_text]

theorem flatMap_textWords_eq_segWords (l : List Segment) :
    l.flatMap (fun c => pyWords c.text) = l.flatMap segWords := by
  induction l with
  | nil => rfl
  | cons s l ih =>
    simp only [List.flatMap_cons]
    rw [ih, pyWords_text]
    rfl

theorem enforce_words (segs : List Segment) (minW maxW : Nat) :
    (enforce_size_constraints segs minW maxW).flatMap segWords =
      segs.flatMap segWords := by
  unfold enforce_size_constraints
  rw [List.flatMap_assoc]
  have hstep : ∀ seg : Segment,
      ((if maxW < seg.word_count then split_large_segment seg maxW
        else [seg]).flatMap segWords) = segWords seg := by
    intro seg
    by_cases h : maxW < seg.word_count
    · simp [h, split_large_segment_words]
    · simp [h]
  have : (mergeSmall minW segs).flatMap (fun seg =>
      (if maxW < seg.word_count then split_large_segment seg maxW
        else [seg]).flatMap segWords) = (mergeSmall minW segs).flatMap segWords := by
    induction mergeSmall minW segs with
    | nil => rfl
    | cons s l ih => simp [List.flatMap_cons, ih, hstep]
  rw [this]
  cases segs with
  | nil => rfl
  | cons s rest =>
    simp [mergeSmall, mergeLoop_words, List.flatMap_cons]

/-! ### Sentence pieces and the split-pass size guarantee (C3, C7, C8) -/

/-- No sentence boundary between adjacent characters: not a `.`/`!`/`?`
followed by whitespace. -/
def nbRel (a b : Char) : Prop := ¬(isSentPunct a = true ∧ isPySpace b = true)

theorem sentBreak_eq_false_nb {c d : Char} {r : List Char}
    (h : sentBreak c (d :: r) = false) : nbRel c d := by
  rintro ⟨h1, h2⟩
  simp [sentBreak, h1, h2] at h

theorem nb_sentBreak_eq_false {c d : Char} {r : List Char} (h : nbRel c d) :
    sentBreak c (d :: r) = false := by
  by_cases h1 : isSentPunct c = true
  · by_cases h2 : isPySpace d = true
    · exact absurd ⟨h1, h2⟩ h
    · simp [sentBreak, h1, h2, Bool.eq_false_iff.mpr h2]
  · simp [sentBreak, Bool.eq_false_iff.mpr h1]

theorem chain'_take_one (l : List Char) : List.Chain' nbRel (l.take 1) := by
  cases l <;> simp

theorem sentSplitGo_chain :
    ∀ (l : List Char) (skip : Bool) (acc : List Char), (skip = true → acc = []) →
      List.Chain' nbRel (acc.reverse ++ l.take 1) →
      ∀ p ∈ sentSplitGo skip acc l, List.Chain' nbRel p := by
  intro l
  induction l with
  | nil =>
    intro skip acc _ hch p hp
    simp only [sentSplitGo, List.mem_singleton] at hp
    subst hp
    simpa using hch
  | cons c rest ih =>
    intro skip acc hsk hch p hp
    rw [sentSplitGo_cons] at hp
    by_cases h1 : (skip && isPySpace c) = true
    · rw [if_pos h1] at hp
      obtain ⟨hskip, -⟩ : skip = true ∧ isPySpace c = true := by simpa using h1
      have hacc : acc = [] := hsk hskip
      subst hacc
      exact ih true [] (fun _ => rfl) (by simpa using chain'_take_one rest) p hp
    · rw [if_neg h1] at hp
      by_cases h2 : sentBreak c rest = true
      · rw [if_pos h2] at hp
        rcases List.mem_cons.mp hp with hp | hp
        · subst hp
          simpa using hch
        · exact ih true [] (fun _ => rfl) (by simpa using chain'_take_one rest) p hp
      · rw [if_neg h2] at hp
        refine ih false (c :: acc) (by simp) ?_ p hp
        have hch1 : List.Chain' nbRel (acc.reverse ++ [c]) := by simpa using hch
        have hlink : ∀ x ∈ (acc.reverse ++ [c]).getLast?, ∀ y ∈ (rest.take 1).head?,
            nbRel x y := by
          intro x hx y hy
          rw [List.getLast?_concat] at hx
          have hxc : c = x := by simpa using hx
          subst hxc
          cases rest with
          | nil => simp at hy
          | cons d r =>
            have hyd : d = y := by simpa using hy
            subst hyd
            exact sentBreak_eq_false_nb (Bool.eq_false_iff.mpr h2)
        have := List.chain'_append.mpr ⟨hch1, chain'_take_one rest, hlink⟩
        simpa using this

theorem sentSplit_chain (cs : List Char) : ∀ p ∈ sentSplit cs, List.Chain' nbRel p :=
  sentSplitGo_chain cs false [] (by simp) (by simpa using chain'_take_one cs)

theorem chain_sentSplitGo_id :
    ∀ (l : List Char), List.Chain' nbRel l →
      ∀ acc, sentSplitGo false acc l = [acc.reverse ++ l] := by
  intro l
  induction l with
  | nil => intro _ acc; simp [sentSplitGo]
  | cons c rest ih =>
    intro hch acc
    rw [sentSplitGo_cons, if_neg (by simp)]
    have h2 : sentBreak c rest = false := by
      cases rest with
      | nil => simp [sentBreak]
      | cons d r => exact nb_sentBreak_eq_false (List.chain'_cons.mp hch).1
    rw [if_neg (by simp [h2])]
    have htail : List.Chain' nbRel rest := (List.chain'_cons'.mp hch).2
    rw [ih htail (c :: acc)]
    simp

theorem chain_sentSplit_id {p : List Char} (h : List.Chain' nbRel p) :
    sentSplit p = [p] := by
  have := chain_sentSplitGo_id p h []
  simpa [sentSplit] using this

/-! ### `pyStrip` is idempotent and preserves boundary-freeness -/

theorem pyStrip_eq_rdrop (cs : List Char) :
    pyStrip cs = List.rdropWhile isPySpace (cs.dropWhile isPySpace) := rfl

theorem head_not_of_dropWhile_fix {p : Char → Bool} {x : Char} {r : List Char}
    (h : List.dropWhile p (x :: r) = x :: r) : p x = false := by
  by_cases hx : p x = true
  · rw [List.dropWhile_cons, if_pos hx] at h
    have hlen : (List.dropWhile p r).length ≤ r.length :=
      ((List.dropWhile_suffix p).sublist).length_le
    have := congrArg List.length h
    simp at this
    omega
  · exact Bool.eq_false_iff.mpr hx

theorem pyStrip_idem (cs : List Char) : pyStrip (pyStrip cs) = pyStrip cs := by
  rw [pyStrip_eq_rdrop, pyStrip_eq_rdrop]
  have hfix : List.dropWhile isPySpace
      (List.rdropWhile isPySpace (cs.dropWhile isPySpace)) =
      List.rdropWhile isPySpace (cs.dropWhile isPySpace) := by
    obtain ⟨t, ht⟩ := List.rdropWhile_prefix isPySpace (cs.dropWhile isPySpace)
    rcases hu : List.rdropWhile isPySpace (cs.dropWhile isPySpace) with _ | ⟨x, u⟩
    · simp
    · have hd : List.dropWhile isPySpace (cs.dropWhile isPySpace) =
          cs.dropWhile isPySpace := List.dropWhile_idempotent _ _
      rw [hu] at ht
      rw [← ht, List.cons_append] at hd
      have hx := head_not_of_dropWhile_fix hd
      rw [List.dropWhile_cons, if_neg (by simp [hx])]
  rw [hfix, List.rdropWhile_idempotent]

theorem chain'_pyStrip {l : List Char} (h : List.Chain' nbRel l) :
    List.Chain' nbRel (pyStrip l) := by
  rw [pyStrip_eq_rdrop]
  exact List.Chain'.prefix (h.suffix (List.dropWhile_suffix _))
    ( List.rdropWhile_prefix _ _)

/-! ### Size bounds of the packing loop -/

theorem mkPiece_wc (seg0 : Segment) (cur : List (List Char)) :
    (mkPiece seg0 cur).word_count = (cur.flatMap pyWords).length := by
  rw [word_count_eq]
  simp [mkPiece, pyWords_sepJoin]

theorem mkPiece_text_single (seg0 : Segment) {p : List Char} (hne : p ≠ [])
    (hstr : pyStrip p = p) : (mkPiece seg0 [p]).text = p := by
  unfold mkPiece Segment.text
  simp [sepJoin, hstr, hne]

theorem mkPiece_emit (maxW : Nat) (seg0 : Segment) {cur : List (List Char)}
    (hp : ∀ p ∈ cur, p ≠ [] ∧ pyStrip p = p ∧ List.Chain' nbRel p)
    (hlen : 2 ≤ cur.length → (cur.flatMap pyWords).length ≤ maxW) (hne : cur ≠ []) :
    (mkPiece seg0 cur).word_count ≤ maxW ∨
      sentSplit (mkPiece seg0 cur).text = [(mkPiece seg0 cur).text] := by
  rcases cur with _ | ⟨p, cur'⟩
  · exact absurd rfl hne
  rcases cur' with _ | ⟨q, cur''⟩
  · by_cases hw : (mkPiece seg0 [p]).word_count ≤ maxW
    · exact Or.inl hw
    · obtain ⟨hne', hstr, hch⟩ := hp p (by simp)
      right
      rw [mkPiece_text_single seg0 hne' hstr]
      exact chain_sentSplit_id hch
  · left
    rw [mkPiece_wc]
    exact hlen (by simp)

theorem packLoop_cons_eq (maxW : Nat) (seg0 : Segment) (cur : List (List Char))
    (curWc : Nat) (sent : List Char) (rest : List (List Char)) :
    packLoop maxW seg0 cur curWc (sent :: rest) =
      if (pyStrip sent).isEmpty = true then packLoop maxW seg0 cur curWc rest
      else if (!cur.isEmpty &&
          decide (maxW < curWc + (pyWords (pyStrip sent)).length)) = true then
        mkPiece seg0 cur ::
          packLoop maxW seg0 [pyStrip sent] (pyWords (pyStrip sent)).length rest
      else packLoop maxW seg0 (cur ++ [pyStrip sent])
        (curWc + (pyWords (pyStrip sent)).length) rest := rfl

theorem packLoop_le_or_single (maxW : Nat) (seg0 : Segment) :
    ∀ (sents cur : List (List Char)) (curWc : Nat),
      (∀ p ∈ cur, p ≠ [] ∧ pyStrip p = p ∧ List.Chain' nbRel p) →
      curWc = (cur.flatMap pyWords).length →
      (2 ≤ cur.length → curWc ≤ maxW) →
      (∀ s ∈ sents, List.Chain' nbRel s) →
      ∀ c ∈ packLoop maxW seg0 cur curWc sents,
        c.word_count ≤ maxW ∨ sentSplit c.text = [c.text] := by
  intro sents
  induction sents with
  | nil =>
    intro cur curWc hp hwc hlen _ c hc
    by_cases h : cur.isEmpty
    · simp [packLoop, h] at hc
    · simp only [packLoop, h, if_false, Bool.false_eq_true, List.mem_singleton] at hc
      subst hc
      exact mkPiece_emit maxW seg0 hp (hwc ▸ hlen) (by simpa using h)
  | cons sent rest ih =>
    intro cur curWc hp hwc hlen hch c hc
    rw [packLoop_cons_eq] at hc
    by_cases h : (pyStrip sent).isEmpty = true
    · rw [if_pos h] at hc
      exact ih cur curWc hp hwc hlen (fun s hs => hch s (by simp [hs])) c hc
    · rw [if_neg h] at hc
      have hsne : pyStrip sent ≠ [] := fun e => h (by simp [e])
      have hpiece : pyStrip sent ≠ [] ∧ pyStrip (pyStrip sent) = pyStrip sent ∧
          List.Chain' nbRel (pyStrip sent) :=
        ⟨hsne, pyStrip_idem sent, chain'_pyStrip (hch sent (by simp))⟩
      by_cases h2 : (!cur.isEmpty &&
          decide (maxW < curWc + (pyWords (pyStrip sent)).length)) = true
      · rw [if_pos h2] at hc
        rcases List.mem_cons.mp hc with hc | hc
        · subst hc
          refine mkPiece_emit maxW seg0 hp (hwc ▸ hlen) ?_
          intro e
          rw [e] at h2
          simp at h2
        · refine ih [pyStrip sent] (pyWords (pyStrip sent)).length ?_ (by simp) ?_
            (fun s hs => hch s (by simp [hs])) c hc
          · intro p hpmem
            have : p = pyStrip sent := by simpa using hpmem
            subst this
            exact hpiece
          · intro hlen2
            simp at hlen2
      · rw [if_neg h2] at hc
        refine ih (cur ++ [pyStrip sent]) (curWc + (pyWords (pyStrip sent)).length)
          ?_ ?_ ?_ (fun s hs => hch s (by simp [hs])) c hc
        · intro p hpmem
          rcases List.mem_append.mp hpmem with hpm | hpm
          · exact hp p hpm
          · have : p = pyStrip sent := by simpa using hpm
            subst this
            exact hpiece
        · simp [List.flatMap_append, hwc]
        · intro hlen2
          by_cases hce : cur.isEmpty
          · have hc0 : cur = [] := List.isEmpty_iff.mp hce
            subst hc0
            simp at hlen2
          · have hnotlt : ¬(maxW < curWc + (pyWords (pyStrip sent)).length) := by
              intro hlt
              exact h2 (by simp [Bool.eq_false_iff.mpr hce, hlt])
            omega

theorem split_large_le_or_single (seg : Segment) (maxW : Nat) :
    ∀ c ∈ split_large_segment seg maxW,
      c.word_count ≤ maxW ∨ sentSplit c.text = [c.text] := by
  intro c hc
  unfold split_large_segment at hc
  by_cases h : seg.word_count ≤ maxW
  · rw [if_pos h] at hc
    have : c = seg := by simpa using hc
    subst this
    exact Or.inl h
  · rw [if_neg h] at hc
    exact packLoop_le_or_single maxW seg _ [] 0 (by simp) (by simp)
      (by intro h2; simp at h2) (sentSplit_chain _) c hc

theorem packLoop_meta (maxW : Nat) (seg0 : Segment) :
    ∀ (sents cur : List (List Char)) (curWc : Nat) (c : Segment),
      c ∈ packLoop maxW seg0 cur curWc sents →
      c.start_line = seg0.start_line ∧ c.end_line = seg0.end_line ∧
      c.chapter = seg0.chapter ∧ c.sect = seg0.sect ∧ c.heading = seg0.heading := by
  intro sents
  induction sents with
  | nil =>
    intro cur curWc c hc
    by_cases h : cur.isEmpty
    · simp [packLoop, h] at hc
    · simp only [packLoop, h, if_false, Bool.false_eq_true, List.mem_singleton] at hc
      subst hc
      simp [mkPiece]
  | cons sent rest ih =>
    intro cur curWc c hc
    rw [packLoop_cons_eq] at hc
    by_cases h : (pyStrip sent).isEmpty = true
    · rw [if_pos h] at hc
      exact ih cur curWc c hc
    · rw [if_neg h] at hc
      by_cases h2 : (!cur.isEmpty &&
          decide (maxW < curWc + (pyWords (pyStrip sent)).length)) = true
      · rw [if_pos h2] at hc
        rcases List.mem_cons.mp hc with hc | hc
        · subst hc
          simp [mkPiece]
        · exact ih _ _ c hc
      · rw [if_neg h2] at hc
        exact ih _ _ c hc

theorem split_large_meta (seg : Segment) (maxW : Nat) :
    ∀ c ∈ split_large_segment seg maxW,
      c.start_line = seg.start_line ∧ c.end_line = seg.end_line ∧
      c.chapter = seg.chapter ∧ c.sect = seg.sect ∧ c.heading = seg.heading := by
  intro c hc
  unfold split_large_segment at hc
  by_cases h : seg.word_count ≤ maxW
  · rw [if_pos h] at hc
    have : c = seg := by simpa using hc
    subst this
    exact ⟨rfl, rfl, rfl, rfl, rfl⟩
  · rw [if_neg h] at hc
    exact packLoop_meta maxW seg _ [] 0 c hc

/-! ### Merge-small pass: lower bound and run decomposition (C3, C4, C5) -/

theorem mergeLoop_cons (minW : Nat) (buf seg : Segment) (rest : List Segment) :
    mergeLoop minW buf (seg :: rest) =
      if buf.word_count < minW then mergeLoop minW (combineSeg buf seg) rest
      else buf :: mergeLoop minW seg rest := rfl

/-- In the output of the merge loop, every element except the last has word
count at least `minW`: the buffer is flushed early only when it is big enough. -/
theorem mergeLoop_dropLast_ge (minW : Nat) :
    ∀ (l : List Segment) (buf : Segment) (i : Nat),
      i + 1 < (mergeLoop minW buf l).length →
      minW ≤ ((mergeLoop minW buf l).getD i dfltSeg).word_count := by
  intro l
  induction l with
  | nil =>
    intro buf i hi
    simp [mergeLoop] at hi
  | cons seg rest ih =>
    intro buf i hi
    by_cases h : buf.word_count < minW
    · rw [mergeLoop_cons, if_pos h] at hi ⊢
      exact ih (combineSeg buf seg) i hi
    · rw [mergeLoop_cons, if_neg h] at hi ⊢
      cases i with
      | zero => simpa using Nat.le_of_not_lt h
      | succ i =>
        rw [List.getD_cons_succ]
        exact ih seg i (by simpa using hi)

/-- Merged value of a run of original segments: left fold of `combineSeg`
starting at the run's first segment. -/
def foldRun (r : Segment × List Segment) : Segment := r.2.foldl combineSeg r.1

/-- The contributing original segments of a run. -/
def runSegs (r : Segment × List Segment) : List Segment := r.1 :: r.2

/-- Run decomposition mirroring `mergeLoop`: instead of the folded buffer it
carries the original segments making up the buffer. -/
def mergeRunsLoop (minW : Nat) (first : Segment) (acc : List Segment) :
    List Segment → List (Segment × List Segment)
  | [] => [(first, acc)]
  | seg :: rest =>
    if (foldRun (first, acc)).word_count < minW then
      mergeRunsLoop minW first (acc ++ [seg]) rest
    else (first, acc) :: mergeRunsLoop minW seg [] rest

/-- Decomposition of the whole merge-small pass into runs of consecutive
original segments. -/
def mergeRuns (minW : Nat) : List Segment → List (Segment × List Segment)
  | [] => []
  | s :: rest => mergeRunsLoop minW s [] rest

/-- Python's `a or b or c or ...` left-fold over optional labels: the first
present, non-empty label wins. -/
def firstLabel (l : List (Option (List Char))) : Option (List Char) :=
  l.foldl pyOr none

theorem mergeRunsLoop_cons (minW : Nat) (first : Segment) (acc : List Segment)
    (seg : Segment) (rest : List Segment) :
    mergeRunsLoop minW first acc (seg :: rest) =
      if (foldRun (first, acc)).word_count < minW then
        mergeRunsLoop minW first (acc ++ [seg]) rest
      else (first, acc) :: mergeRunsLoop minW seg [] rest := rfl

theorem combineSeg_foldRun (first seg : Segment) (acc : List Segment) :
    combineSeg (foldRun (first, acc)) seg = foldRun (first, acc ++ [seg]) := by
  simp [foldRun, List.foldl_append]

theorem mergeLoop_eq_runs (minW : Nat) :
    ∀ (l : List Segment) (first : Segment) (acc : List Segment),
      mergeLoop minW (foldRun (first, acc)) l =
        (mergeRunsLoop minW first acc l).map foldRun := by
  intro l
  induction l with
  | nil => intro first acc; simp [mergeLoop, mergeRunsLoop]
  | cons seg rest ih =>
    intro first acc
    rw [mergeLoop_cons, mergeRunsLoop_cons]
    by_cases h : (foldRun (first, acc)).word_count < minW
    · rw [if_pos h, if_pos h, combineSeg_foldRun, ih]
    · rw [if_neg h, if_neg h, List.map_cons]
      have := ih seg []
      simp only [foldRun, List.foldl_nil] at this
      rw [this]

theorem mergeRunsLoop_flatten (minW : Nat) :
    ∀ (l : List Segment) (first : Segment) (acc : List Segment),
      (mergeRunsLoop minW first acc l).flatMap runSegs = first :: (acc ++ l) := by
  intro l
  induction l with
  | nil => intro first acc; simp [mergeRunsLoop, runSegs]
  | cons seg rest ih =>
    intro first acc
    rw [mergeRunsLoop_cons]
    by_cases h : (foldRun (first, acc)).word_count < minW
    · rw [if_pos h, ih]
      simp
    · rw [if_neg h, List.flatMap_cons, ih]
      simp [runSegs]

/-- The merge-small pass equals folding `combineSeg` over each run. -/
theorem mergeSmall_eq_runs (minW : Nat) (segs : List Segment) :
    mergeSmall minW segs = (mergeRuns minW segs).map foldRun := by
  cases segs with
  | nil => rfl
  | cons s rest =>
    have := mergeLoop_eq_runs minW rest s []
    simpa [mergeSmall, mergeRuns, foldRun] using this

/-- The runs partition the input: concatenating the contributing segments of
all runs gives back the original segment list. -/
theorem mergeRuns_flatten (minW : Nat) (segs : List Segment) :
    (mergeRuns minW segs).flatMap runSegs = segs := by
  cases segs with
  | nil => rfl
  | cons s rest =>
    have := mergeRunsLoop_flatten minW rest s []
    simpa [mergeRuns] using this

theorem foldRun_chapter :
    ∀ (acc : List Segment) (first : Segment),
      (foldRun (first, acc)).chapter =
        (acc.map Segment.chapter).foldl pyOr first.chapter := by
  intro acc
  induction acc with
  | nil => intro first; rfl
  | cons a acc ih =>
    intro first
    have : foldRun (first, a :: acc) = foldRun (combineSeg first a, acc) := by
      simp [foldRun]
    rw [this, ih]
    simp [combineSeg]

theorem foldRun_sect :
    ∀ (acc : List Segment) (first : Segment),
      (foldRun (first, acc)).sect =
        (acc.map Segment.sect).foldl pyOr first.sect := by
  intro acc
  induction acc with
  | nil => intro first; rfl
  | cons a acc ih =>
    intro first
    have : foldRun (first, a :: acc) = foldRun (combineSeg first a, acc) := by
      simp [foldRun]
    rw [this, ih]
    simp [combineSeg]

theorem foldRun_heading :
    ∀ (acc : List Segment) (first : Segment),
      (foldRun (first, acc)).heading =
        (acc.map Segment.heading).foldl pyOr first.heading := by
  intro acc
  induction acc with
  | nil => intro first; rfl
  | cons a acc ih =>
    intro first
    have : foldRun (first, a :: acc) = foldRun (combineSeg first a, acc) := by
      simp [foldRun]
    rw [this, ih]
    simp [combineSeg]

theorem firstLabel_cons (x : Option (List Char)) (xs : List (Option (List Char))) :
    firstLabel (x :: xs) = xs.foldl pyOr x := rfl

/-! ### Glossary priority (C6) -/

/-- ASCII lower-case letter. -/
def isLowerAlpha (c : Char) : Bool := 'a' ≤ c && c ≤ 'z'

theorem ws_chars {c : Char} (h : isPySpace c = true) :
    c = ' ' ∨ c = '\t' ∨ c = '\n' ∨ c = '\r' ∨ c = '\x0b' ∨ c = '\x0c' := by
  simp [isPySpace] at h
  tauto

theorem ws_lower_self {c : Char} (h : isPySpace c = true) : lowerCh c = c := by
  rcases ws_chars h with rfl | rfl | rfl | rfl | rfl | rfl <;> decide

theorem ws_not_word {c : Char} (h : isPySpace c = true) : isWordChar c = false := by
  rcases ws_chars h with rfl | rfl | rfl | rfl | rfl | rfl <;> decide

theorem ws_ne_lower {c p : Char} (hc : isPySpace c = true)
    (hp : isLowerAlpha p = true) : (decide (lowerCh c = p)) = false := by
  rw [ws_lower_self hc]
  refine decide_eq_false ?_
  rcases ws_chars hc with rfl | rfl | rfl | rfl | rfl | rfl <;>
    · intro e
      subst e
      exact absurd hp (by decide)

theorem isPrefixCI_length :
    ∀ (pat cs : List Char), isPrefixCI pat cs = true → pat.length ≤ cs.length := by
  intro pat
  induction pat with
  | nil => intro cs _; simp
  | cons p ps ih =>
    intro cs h
    cases cs with
    | nil => simp [isPrefixCI] at h
    | cons c cs =>
      simp only [isPrefixCI, Bool.and_eq_true] at h
      have := ih cs h.2
      simp
      omega

theorem isPrefixCI_append_ws {t : List Char} (hws : ∀ c ∈ t, isPySpace c = true) :
    ∀ (pat x : List Char), (∀ p ∈ pat, isLowerAlpha p = true) →
      isPrefixCI pat (x ++ t) = isPrefixCI pat x := by
  intro pat
  induction pat with
  | nil => intro x _; rfl
  | cons p ps ih =>
    intro x hpat
    cases x with
    | nil =>
      simp only [List.nil_append]
      cases t with
      | nil => rfl
      | cons c t2 =>
        simp only [isPrefixCI]
        rw [ws_ne_lower (hws c (by simp)) (hpat p (by simp))]
        rfl
    | cons c x2 =>
      simp only [List.cons_append, isPrefixCI, List.append_eq]
      rw [ih x2 (fun q hq => hpat q (by simp [hq]))]

theorem boundaryAfter_append_ws {t : List Char} (hws : ∀ c ∈ t, isPySpace c = true)
    (y : List Char) : boundaryAfter (y ++ t) = boundaryAfter y := by
  cases y with
  | nil =>
    cases t with
    | nil => rfl
    | cons c t2 =>
      simp only [List.nil_append, boundaryAfter, ws_not_word (hws c (by simp))]
      rfl
  | cons d ys => rfl

theorem glossAt_append_ws {t : List Char} (hws : ∀ c ∈ t, isPySpace c = true)
    (x : List Char) : glossAt (x ++ t) = glossAt x := by
  unfold glossAt
  rw [isPrefixCI_append_ws hws glossaryChars x (by decide)]
  by_cases hp : isPrefixCI glossaryChars x = true
  · have hlen : 8 ≤ x.length := by
      have := isPrefixCI_length glossaryChars x hp
      simpa [glossaryChars] using this
    have hdrop : (x ++ t).drop 8 = x.drop 8 ++ t := by
      rw [List.drop_append_eq_append_drop, Nat.sub_eq_zero_of_le hlen, List.drop_zero]
    rw [hp, Bool.true_and, Bool.true_and, hdrop, boundaryAfter_append_ws hws]
  · rw [Bool.eq_false_iff.mpr hp]
    simp

theorem glossAt_ws_head {c : Char} {rest : List Char} (h : isPySpace c = true) :
    glossAt (c :: rest) = false := by
  have hg := ws_ne_lower h (p := 'g') (by decide)
  simp [glossAt, glossaryChars, isPrefixCI, hg]

theorem glossSearch_allws {t : List Char} (hws : ∀ c ∈ t, isPySpace c = true) :
    ∀ p, glossSearch p t = false := by
  induction t with
  | nil => intro p; rfl
  | cons c t2 ih =>
    intro p
    simp only [glossSearch, glossAt_ws_head (hws c (by simp)), Bool.and_false,
      Bool.false_or]
    exact ih (fun d hd => hws d (by simp [hd])) _

theorem glossSearch_append_ws {t : List Char} (hws : ∀ c ∈ t, isPySpace c = true) :
    ∀ (x : List Char) (p : Bool), glossSearch p (x ++ t) = glossSearch p x := by
  intro x
  induction x with
  | nil => intro p; rw [List.nil_append, glossSearch_allws hws]; rfl
  | cons c x2 ih =>
    intro p
    simp only [List.cons_append, glossSearch, List.append_eq]
    rw [show c :: (x2 ++ t) = (c :: x2) ++ t from rfl,
      glossAt_append_ws hws (c :: x2), ih]

theorem glossSearch_cons_ws {c : Char} {rest : List Char} (h : isPySpace c = true) :
    glossSearch false (c :: rest) = glossSearch false rest := by
  simp [glossSearch, glossAt_ws_head h, ws_not_word h]

theorem glossaryFound_dropWhile (l : List Char) :
    glossaryFound (l.dropWhile isPySpace) = glossaryFound l := by
  induction l with
  | nil => rfl
  | cons c l2 ih =>
    by_cases h : isPySpace c = true
    · rw [List.dropWhile_cons, if_pos h, ih]
      exact (glossSearch_cons_ws h).symm
    · rw [List.dropWhile_cons, if_neg (by simpa using h)]

/-- Stripping surrounding whitespace does not affect the glossary search. -/
theorem glossaryFound_strip (l : List Char) :
    glossaryFound (pyStrip l) = glossaryFound l := by
  obtain ⟨v, hd, hv⟩ := strip_decomp l
  have h1 : glossSearch false (pyStrip l ++ v) = glossSearch false (pyStrip l) :=
    glossSearch_append_ws hv _ _
  have h2 : glossaryFound (pyStrip l) = glossaryFound (l.dropWhile isPySpace) := by
    rw [glossaryFound, glossaryFound, ← h1, ← hd]
  rw [h2, glossaryFound_dropWhile]

/-! ### Concrete inputs used by counterexamples and witnesses -/

/-- A text of `n` single-letter words. -/
def wrepeat (n : Nat) : List Char := sepJoin (List.replicate n ['w'])

/-- A sentence of `n` single-letter words ending in a period. -/
def sentenceOf (n : Nat) : List Char := wrepeat n ++ ['.']

/-- Segment with three sentences of 600, 140 and 601 words (1341 words total). -/
def segC3 : Segment :=
  { start_line := 1, end_line := 3, chapter := none, sect := none, heading := none,
    text_lines := [sentenceOf 600, sentenceOf 140, sentenceOf 601] }

/-- Segment with 160 words. -/
def segW160 : Segment :=
  { start_line := 1, end_line := 1, chapter := none, sect := none, heading := none,
    text_lines := [wrepeat 160] }

/-- Segment with 5 words. -/
def segW5 : Segment :=
  { start_line := 2, end_line := 2, chapter := none, sect := none, heading := none,
    text_lines := [wrepeat 5] }

/-- Segment with 10 words, lines 1-1. -/
def segW10a : Segment :=
  { start_line := 1, end_line := 1, chapter := none, sect := none, heading := none,
    text_lines := [wrepeat 10] }

/-- Segment with 10 words, lines 2-2. -/
def segW10b : Segment :=
  { start_line := 2, end_line := 2, chapter := none, sect := none, heading := none,
    text_lines := [wrepeat 10] }

/-- Segment with 200 words, lines 3-3. -/
def segW200 : Segment :=
  { start_line := 3, end_line := 3, chapter := none, sect := none, heading := none,
    text_lines := [wrepeat 200] }

/-- Small segment with all labels absent. -/
def segNoCh : Segment :=
  { start_line := 1, end_line := 1, chapter := none, sect := none, heading := none,
    text_lines := ["tiny text".data] }

/-- Small segment with chapter 2, section 2.1 and heading H. -/
def segCh2 : Segment :=
  { start_line := 2, end_line := 2, chapter := some "2".data,
    sect := some "2.1".data, heading := some "H".data,
    text_lines := ["more little text".data] }

/-- Three-word segment, used to exercise the pass-through case of the splitter. -/
def segSmall : Segment :=
  { start_line := 1, end_line := 1, chapter := none, sect := none, heading := none,
    text_lines := ["a b c".data] }

/-- Four-word, two-sentence segment with full provenance labels. -/
def segSplitW : Segment :=
  { start_line := 4, end_line := 7, chapter := some "3".data,
    sect := some "3.1".data, heading := some "T".data,
    text_lines := ["a b. c d.".data] }

/-- The four input lines of the spec's first example scenario. -/
def c9lines : List (List Char) :=
  ["CHAPTER 1.\n".data, "Intro text here.\n".data, "1.1 Basics\n".data,
   "More content.\n".data]

/-- First segment actually produced on `c9lines`: it spans lines 1-2. -/
def c9seg1 : Segment :=
  { start_line := 1, end_line := 2, chapter := some "1".data, sect := none,
    heading := some "Chapter 1".data,
    text_lines := ["CHAPTER 1.".data, "Intro text here.".data] }

/-- Second segment actually produced on `c9lines`: it spans lines 3-4. -/
def c9seg2 : Segment :=
  { start_line := 3, end_line := 4, chapter := some "1".data,
    sect := some "1.1".data, heading := some "Basics".data,
    text_lines := ["1.1 Basics".data, "More content.".data] }

/-! ### Claim theorems -/

/-- The coverage property claimed for the Segmenter's output: line `n` is
covered by some returned segment exactly when `1 ≤ n ≤ N`. -/
def coversExactly (segs : List Segment) (N : Nat) : Prop :=
  ∀ n : Nat, (1 ≤ n ∧ n ≤ N) ↔ ∃ s ∈ segs, s.start_line ≤ n ∧ n ≤ s.end_line

/-- C1 counterexample: on the one-line input `[" "]` the blank segment is
filtered out, so `build_semantic_segments` returns no segment at all and
line 1 is not covered — the claimed coverage fails. -/
theorem C1_counterexample : ¬ coversExactly (build_semantic_segments [[' ']]) 1 := by
  intro h
  have h1 := (h 1).mp ⟨le_refl 1, le_refl 1⟩
  have he : build_semantic_segments [[' ']] = [] := by decide
  rw [he] at h1
  simp at h1

/-- C1 amended: before the zero-word filter the segment ranges of
`build_semantic_segments` tile `{1..N}` exactly (contiguous, non-overlapping,
no gaps); the returned list is a sublist of that tiling, so its ranges stay
ordered and non-overlapping but ranges of blank (zero-word) segments are
missing. -/
theorem C1_amended (lines : List (List Char)) :
    tiles (buildSegmentsRaw lines) 1 lines.length ∧
      List.Sublist (build_semantic_segments lines) (buildSegmentsRaw lines) :=
  ⟨tiles_buildSegmentsRaw lines, List.filter_sublist _⟩

/-- C2: the size normalizer neither loses nor duplicates content: the
concatenated word sequences of the output chunks' texts equal the concatenated
word sequences of the input segments' texts, for every input and window. -/
theorem C2_content_preservation (segs : List Segment) (minW maxW : Nat) :
    (enforce_size_constraints segs minW maxW).flatMap (fun c => pyWords c.text) =
      segs.flatMap (fun s => pyWords s.text) := by
  rw [flatMap_textWords_eq_segWords, flatMap_textWords_eq_segWords]
  exact enforce_words segs minW maxW

/-- The window property claimed in C3 for a single chunk. -/
def withinWindowOrOversizedSingle (c : Segment) : Prop :=
  (150 ≤ c.word_count ∧ c.word_count ≤ 700) ∨
    (700 < c.word_count ∧ sentSplit c.text = [c.text])

instance (c : Segment) : Decidable (withinWindowOrOversizedSingle c) := by
  unfold withinWindowOrOversizedSingle
  infer_instance

set_option maxRecDepth 16000 in
set_option maxHeartbeats 2000000 in
/-- C3 counterexample: a single 1341-word segment with sentences of 600, 140
and 601 words splits into chunks of 600, 140 and 601 words; the middle chunk
(neither first nor last) has 140 words, outside `[150, 700]`, and is not an
oversized single sentence. -/
theorem C3_counterexample :
    (enforce_size_constraints [segC3] 150 700).length = 3 ∧
      ¬ withinWindowOrOversizedSingle
        ((enforce_size_constraints [segC3] 150 700).getD 1 dfltSeg) := by
  decide

/-- C3 amended: with `min_words = 150` and `max_words = 700`, every merged
Segment except the last has word count at least 150, and every final Chunk has
word count at most 700 unless its text is a single sentence piece; however a
Chunk produced by the split pass may fall below 150 even in the middle of the
sequence (see the counterexample). -/
theorem C3_amended (segs : List Segment) :
    (∀ i : Nat, i + 1 < (mergeSmall 150 segs).length →
      150 ≤ ((mergeSmall 150 segs).getD i dfltSeg).word_count) ∧
    (∀ c ∈ enforce_size_constraints segs 150 700,
      c.word_count ≤ 700 ∨ sentSplit c.text = [c.text]) := by
  constructor
  · intro i hi
    cases segs with
    | nil => simp [mergeSmall] at hi
    | cons s rest => exact mergeLoop_dropLast_ge 150 rest s i hi
  · intro c hc
    unfold enforce_size_constraints at hc
    obtain ⟨seg, hseg, hcm⟩ := List.mem_flatMap.mp hc
    by_cases h : 700 < seg.word_count
    · rw [if_pos h] at hcm
      exact split_large_le_or_single seg 700 c hcm
    · rw [if_neg h] at hcm
      have : c = seg := by simpa using hcm
      subst this
      exact Or.inl (by omega)

set_option maxRecDepth 16000 in
/-- C3 witness: on `[segW160, segW5]` the merged list has two elements whose
first has at least 150 words, and the first output chunk is within bounds. -/
theorem C3_witness :
    150 ≤ ((mergeSmall 150 [segW160, segW5]).getD 0 dfltSeg).word_count ∧
      (segW160.word_count ≤ 700 ∨ sentSplit segW160.text = [segW160.text]) :=
  ⟨(C3_amended [segW160, segW5]).1 0 (by decide),
   (C3_amended [segW160, segW5]).2 segW160 (by decide)⟩

set_option maxRecDepth 16000 in
/-- C4: the merge decision inspects only the buffer's own word count: whenever
it is strictly below `min_words` the incoming Segment is combined into the
buffer (buffer's lines followed by the incoming lines, buffer's start, incoming
end); and concretely, three segments of 10, 10 and 200 words with
`min_words = 150` merge into a single Segment of 220 words. -/
theorem C4_merge_uses_buffer_count :
    (∀ (minW : Nat) (buf seg : Segment) (rest : List Segment),
      buf.word_count < minW →
        mergeLoop minW buf (seg :: rest) = mergeLoop minW (combineSeg buf seg) rest ∧
        (combineSeg buf seg).text_lines = buf.text_lines ++ seg.text_lines ∧
        (combineSeg buf seg).start_line = buf.start_line ∧
        (combineSeg buf seg).end_line = seg.end_line) ∧
    (mergeSmall 150 [segW10a, segW10b, segW200]).length = 1 ∧
    ((mergeSmall 150 [segW10a, segW10b, segW200]).getD 0 dfltSeg).word_count = 220 := by
  refine ⟨fun minW buf seg rest h => ⟨?_, rfl, rfl, rfl⟩, by decide, by decide⟩
  rw [mergeLoop_cons, if_pos h]

/-- C4 witness: the merge step applied at a concrete undersized buffer. -/
theorem C4_witness :
    mergeLoop 150 segW10a (segW10b :: []) =
        mergeLoop 150 (combineSeg segW10a segW10b) [] ∧
      (combineSeg segW10a segW10b).text_lines =
        segW10a.text_lines ++ segW10b.text_lines ∧
      (combineSeg segW10a segW10b).start_line = segW10a.start_line ∧
      (combineSeg segW10a segW10b).end_line = segW10b.end_line :=
  C4_merge_uses_buffer_count.1 150 segW10a segW10b [] (by decide)

/-- C5 counterexample: merging a run whose first segment has no chapter label
takes the chapter of the *second* contributing segment, so the merged chunk's
labels do not equal the first contributing segment's labels. -/
theorem C5_counterexample :
    (mergeSmall 150 [segNoCh, segCh2]).length = 1 ∧
      ((mergeSmall 150 [segNoCh, segCh2]).getD 0 dfltSeg).chapter = some "2".data ∧
      segNoCh.chapter = none ∧
      ¬ (((mergeSmall 150 [segNoCh, segCh2]).getD 0 dfltSeg).chapter =
        segNoCh.chapter) := by
  decide

/-- C5 amended: the merge-small pass is exactly folding `combineSeg` over runs
of consecutive original segments, and each merged chunk's chapter, section and
heading equal the *first present and non-empty* corresponding label among the
run's contributing segments in order (so the first segment's label wins when it
is present and non-empty; otherwise the label falls through to a later
contributing segment). -/
theorem C5_amended (minW : Nat) (segs : List Segment) :
    mergeSmall minW segs = (mergeRuns minW segs).map foldRun ∧
      (mergeRuns minW segs).flatMap runSegs = segs ∧
      ∀ r ∈ mergeRuns minW segs,
        (foldRun r).chapter = firstLabel ((runSegs r).map Segment.chapter) ∧
        (foldRun r).sect = firstLabel ((runSegs r).map Segment.sect) ∧
        (foldRun r).heading = firstLabel ((runSegs r).map Segment.heading) := by
  refine ⟨mergeSmall_eq_runs minW segs, mergeRuns_flatten minW segs, ?_⟩
  rintro ⟨first, acc⟩ -
  refine ⟨?_, ?_, ?_⟩
  · rw [foldRun_chapter]
    simp [runSegs, firstLabel_cons]
  · rw [foldRun_sect]
    simp [runSegs, firstLabel_cons]
  · rw [foldRun_heading]
    simp [runSegs, firstLabel_cons]

/-- C5 witness: the label rule applied to the concrete two-segment run. -/
theorem C5_witness :
    (foldRun (segNoCh, [segCh2])).chapter =
        firstLabel ((runSegs (segNoCh, [segCh2])).map Segment.chapter) ∧
      (foldRun (segNoCh, [segCh2])).sect =
        firstLabel ((runSegs (segNoCh, [segCh2])).map Segment.sect) ∧
      (foldRun (segNoCh, [segCh2])).heading =
        firstLabel ((runSegs (segNoCh, [segCh2])).map Segment.heading) :=
  (C5_amended 150 [segNoCh, segCh2]).2.2 (segNoCh, [segCh2]) (by decide)

/-- C6: whenever the line contains the standalone word "glossary" in any
letter case anywhere in it, `classify_heading` returns exactly
`("Glossary", None, "Glossary")`, for every tracked chapter — the glossary
check runs before the chapter and section patterns, so it wins even when those
would also match. -/
theorem C6_glossary_priority (line : List Char) (cur : Option (List Char))
    (h : glossaryFound line = true) :
    classify_heading line cur = (some glossaryLabel, none, some glossaryLabel) := by
  have h2 : glossaryFound (pyStrip line) = true := by
    rw [glossaryFound_strip]
    exact h
  simp [classify_heading, h2]

/-- C6 witness: the spec's example line `"   glossary terms"`. -/
theorem C6_witness :
    glossaryFound "   glossary terms".data = true ∧
      classify_heading "   glossary terms".data none =
        (some glossaryLabel, none, some glossaryLabel) :=
  ⟨by decide, C6_glossary_priority "   glossary terms".data none (by decide)⟩

/-- C7: a Segment whose word count is at most `max_words` passes through
`split_large_segment` unchanged as the sole result; otherwise every resulting
Segment has word count at most `max_words`, except one consisting of a single
oversized sentence piece, which is emitted alone as-is. -/
theorem C7_split_behavior (seg : Segment) (maxW : Nat) :
    (seg.word_count ≤ maxW → split_large_segment seg maxW = [seg]) ∧
    (∀ c ∈ split_large_segment seg maxW,
      c.word_count ≤ maxW ∨ (maxW < c.word_count ∧ sentSplit c.text = [c.text])) := by
  constructor
  · intro h
    unfold split_large_segment
    rw [if_pos h]
  · intro c hc
    by_cases hw : c.word_count ≤ maxW
    · exact Or.inl hw
    · exact Or.inr ⟨by omega,
        (split_large_le_or_single seg maxW c hc).resolve_left hw⟩

/-- C7 witness: the pass-through case on a three-word segment. -/
theorem C7_witness :
    split_large_segment segSmall 10 = [segSmall] ∧
      (segSmall.word_count ≤ 10 ∨
        (10 < segSmall.word_count ∧ sentSplit segSmall.text = [segSmall.text])) :=
  ⟨(C7_split_behavior segSmall 10).1 (by decide),
   (C7_split_behavior segSmall 10).2 segSmall (by decide)⟩

/-- C8: every sub-Segment produced by `split_large_segment` carries exactly the
same `start_line`, `end_line`, `chapter`, `section` and `heading` as the
original Segment. -/
theorem C8_split_preserves_provenance (seg : Segment) (maxW : Nat) (c : Segment)
    (hc : c ∈ split_large_segment seg maxW) :
    c.start_line = seg.start_line ∧ c.end_line = seg.end_line ∧
      c.chapter = seg.chapter ∧ c.sect = seg.sect ∧ c.heading = seg.heading :=
  split_large_meta seg maxW c hc

/-- C8 witness: provenance preservation on a concrete oversized split: the
two-sentence segment `"a b. c d."` splits under `max_words = 3` and the first
sub-Segment keeps all five metadata fields. -/
theorem C8_witness :
    ((split_large_segment segSplitW 3).getD 0 dfltSeg).start_line =
        segSplitW.start_line ∧
      ((split_large_segment segSplitW 3).getD 0 dfltSeg).end_line =
        segSplitW.end_line ∧
      ((split_large_segment segSplitW 3).getD 0 dfltSeg).chapter =
        segSplitW.chapter ∧
      ((split_large_segment segSplitW 3).getD 0 dfltSeg).sect =
        segSplitW.sect ∧
      ((split_large_segment segSplitW 3).getD 0 dfltSeg).heading =
        segSplitW.heading :=
  C8_split_preserves_provenance segSplitW 3
    ((split_large_segment segSplitW 3).getD 0 dfltSeg) (by decide)

/-- C9 counterexample: on the example input, `build_semantic_segments` yields
2 segments, not 3 — line 2 is not a heading, so it is appended to the segment
opened at line 1 and the first segment's text is
`"CHAPTER 1. Intro text here."`, not `"CHAPTER 1."`. -/
theorem C9_counterexample :
    (build_semantic_segments c9lines).length = 2 ∧
      ¬ ((build_semantic_segments c9lines).length = 3) ∧
      ((build_semantic_segments c9lines).getD 0 dfltSeg).text =
        "CHAPTER 1. Intro text here.".data := by
  decide

/-- C9 amended: on the input
`["CHAPTER 1.\n", "Intro text here.\n", "1.1 Basics\n", "More content.\n"]`,
`build_semantic_segments` yields exactly 2 segments:
`{chapter "1", section none, heading "Chapter 1", lines 1-2,
text "CHAPTER 1. Intro text here."}` and
`{chapter "1", section "1.1", heading "Basics", lines 3-4,
text "1.1 Basics More content."}`. -/
theorem C9_amended : build_semantic_segments c9lines = [c9seg1, c9seg2] := by
  decide

/-- C10: on an empty input the scan leaves the line buffer empty (so the
final-segment close guarded by it never runs and the loop index is never
read), `build_semantic_segments` returns the empty list, and
`enforce_size_constraints` on an empty segment list returns the empty list
for every window. -/
theorem C10_empty_input :
    build_semantic_segments [] = [] ∧
      (runLines initState 1 []).curLines = [] ∧
      ∀ (minW maxW : Nat), enforce_size_constraints [] minW maxW = [] :=
  ⟨rfl, rfl, fun _ _ => rfl⟩
